import Mathlib

/-!
Verification of the order-matching core of the OrderBook-over-TCP repository
(`models/order.go`, `models/orderBook.go`).

The Go code is embedded shallowly and faithfully:

* Machine integers (`int`) become `Int`; sizes, prices and ids are `Int`.
  Prices are `float64` in Go, but every price handled by the program is exact
  (decimal literals parsed from the wire) and is only ever compared with `==`,
  `>=` and used as a map key, so they are embedded as exact integers scaled by
  the caller (no rounding behaviour of `float64` is ever observable for the
  values the claims discuss).
* Go slice values are `(backing array, length)` pairs.  Backing arrays live in
  an explicit heap (`heap : List (List Order)`), because `MatchOrders` keeps
  local slice variables (`bids`, `asks`) that alias the arrays stored in the
  book maps: an in-place element shift performed through `ob.Asks[p] =
  append(ob.Asks[p][:j], ob.Asks[p][j+1:]...)` is visible through the stale
  local slice.  A slice here is `(aid, len)` with offset 0 — every slice the
  program stores or keeps in a local starts at element 0 of its array, and
  capacity slack is unobservable (removal appends always fit in place; growth
  appends in `AddOrder` drop the old array), so it is not modelled.
* Go maps become association lists.  Go's map iteration order is unspecified;
  the association-list order stands for one concrete possible iteration order
  (the insertion order in which `AddOrder` created the levels).  Go guarantees
  that an entry deleted during iteration before being reached is not produced;
  iteration below therefore walks a snapshot of the keys and skips keys that
  have been deleted, reading the current value when a key is reached.
* `time.Now()` is a strictly increasing clock `now : Nat` on the book; two
  calls never return equal instants, so `sort.Slice` by `Timestamp.Before`
  (not stable in Go) has a unique result, computed by insertion sort.
* The mutex serialises `AddOrder` / `MatchOrders` / `StopMatching`; the
  embedding is the serialised semantics: each operation is a function from
  book state to book state.
* Run-time panics (index out of range, slice bounds, close of a closed
  channel) are `Except` errors.  The matching loops can revisit indices
  (`i--`, `j--`), so they take a fuel argument; exhausted fuel is a separate
  error value `MErr.outOfFuel`, distinct from a Go panic, and theorems about
  `.ok` or `.error (.goPanic _)` results hold for the program regardless of
  the fuel chosen.
-/

namespace TCPOrderBook

/-- Embedding of `models/order.go` `Order`.  `Timestamp` is the model clock
value handed out by the book at submission. -/
structure Order where
  Price : Int
  Id : Int
  Ticker : String
  Size : Int
  OrderType : Int
  Side : String
  Timestamp : Nat
  GTC : Bool
  FOK : Bool
deriving Repr, DecidableEq

/-- Embedding of `models/order.go` `GetType`: market 1, limit 2, gtc 3,
fok 4, unknown 0. -/
def GetType (orderType : String) : Int :=
  if orderType = "market" then 1
  else if orderType = "limit" then 2
  else if orderType = "gtc" then 3
  else if orderType = "fok" then 4
  else 0

/-- A Go slice value of element type `Order`: array id into the book's heap
plus the slice length.  Offset is always 0 (see file header). -/
structure GoSlice where
  aid : Nat
  len : Nat
deriving Repr, DecidableEq

/-- Embedding of `models/orderBook.go` `OrderBook`.  `Bids`/`Asks` are the
price-keyed Go maps as association lists (list order = one possible Go map
iteration order, the level-creation order); `heap` holds the slice backing
arrays; `nextOrderID` is the id counter; `now` the model clock;
`stopClosed` records whether `stopChan` has been closed. -/
structure OrderBook where
  Bids : List (Int × GoSlice)
  Asks : List (Int × GoSlice)
  heap : List (List Order)
  nextOrderID : Int
  now : Nat
  stopClosed : Bool
deriving Repr, DecidableEq

/-- Embedding of `NewOrderBook`: empty maps, zero id counter, open stop
channel. -/
def NewOrderBook : OrderBook :=
  { Bids := [], Asks := [], heap := [], nextOrderID := 0, now := 0,
    stopClosed := false }

/-- Go map lookup `m[k]` (presence form). -/
def mapGet (m : List (Int × GoSlice)) (k : Int) : Option GoSlice :=
  match m with
  | [] => none
  | (k0, v0) :: rest => if k = k0 then some v0 else mapGet rest k

/-- Go map assignment `m[k] = v`: updates the entry in place, or appends a
new entry (new keys take a fresh position in the iteration order). -/
def mapSet (m : List (Int × GoSlice)) (k : Int) (v : GoSlice) :
    List (Int × GoSlice) :=
  match m with
  | [] => [(k, v)]
  | (k0, v0) :: rest =>
      if k = k0 then (k, v) :: rest else (k0, v0) :: mapSet rest k v

/-- Go `delete(m, k)`. -/
def mapDelete (m : List (Int × GoSlice)) (k : Int) : List (Int × GoSlice) :=
  match m with
  | [] => []
  | (k0, v0) :: rest =>
      if k = k0 then rest else (k0, v0) :: mapDelete rest k

/-- Keys of a map in iteration order. -/
def mapKeys (m : List (Int × GoSlice)) : List Int := m.map Prod.fst

/-- Read a backing array from the heap (missing id reads as the empty
array; it never occurs on states the program builds). -/
def heapGet (h : List (List Order)) (aid : Nat) : List Order := h.getD aid []

/-- Write a backing array in the heap. -/
def heapSet (h : List (List Order)) (aid : Nat) (arr : List Order) :
    List (List Order) := h.set aid arr

/-- Element read `s[i]` of a slice: `none` models the index-out-of-range
panic. -/
def sliceIdx (b : OrderBook) (s : GoSlice) (i : Int) : Option Order :=
  if 0 ≤ i ∧ i < (s.len : Int) then (heapGet b.heap s.aid).get? i.toNat
  else none

/-- Effect of Go `append(s[:j], s[j+1:]...)` on the backing array of a slice
of live length `len`: elements `j+1 .. len-1` shift down one place; cells
from `len-1` on keep their old (now ghost) values. -/
def removeShift (arr : List Order) (j len : Nat) : List Order :=
  arr.take j ++ (arr.drop (j + 1)).take (len - 1 - j) ++ arr.drop (len - 1)

/-- The removal statement `s = append(s[:j], s[j+1:]...)` itself: panics
(`none`) unless `0 ≤ j < len(s)` (for `j ≥ len(s)` the implicit high bound
of `s[j+1:]` is below its low bound, a slice-bounds panic; the same check
covers the nil slice `len = 0` read from a deleted map key), otherwise
shifts the backing array in place and returns the shortened slice. -/
def removeAt (b : OrderBook) (s : GoSlice) (j : Int) :
    Option (OrderBook × GoSlice) :=
  if 0 ≤ j ∧ j < (s.len : Int) then
    some ({ b with
              heap := heapSet b.heap s.aid
                (removeShift (heapGet b.heap s.aid) j.toNat s.len) },
          { s with len := s.len - 1 })
  else none

/-- Insertion step of the timestamp sort (ascending `Timestamp`, i.e. Go
`Timestamp.Before`). -/
def insertTs (o : Order) : List Order → List Order
  | [] => [o]
  | x :: xs => if o.Timestamp < x.Timestamp then o :: x :: xs
               else x :: insertTs o xs

/-- `sort.Slice(level, Timestamp.Before)`: timestamps are pairwise distinct
(strict model clock), so the sort result is the unique ascending order,
computed here by insertion sort. -/
def sortByTs : List Order → List Order
  | [] => []
  | x :: xs => insertTs x (sortByTs xs)

/-- Append `order` to the level slice for `price` in map `m` and re-sort the
live region, exactly as `AddOrder` does:
`m[price] = append(m[price], order); sort.Slice(...)`.
On a missing key the nil slice grows into a fresh array; on an existing key
the append writes in place at index `len` (capacity always suffices in the
model, and capacity slack is unobservable — see file header), preserving any
ghost cells beyond, and the sort permutes only the live region. -/
def appendToLevel (b : OrderBook) (m : List (Int × GoSlice)) (price : Int)
    (order : Order) : List (List Order) × List (Int × GoSlice) :=
  match mapGet m price with
  | none =>
      (b.heap ++ [[order]], mapSet m price ⟨b.heap.length, 1⟩)
  | some s =>
      let arr := heapGet b.heap s.aid
      let grown := arr.take s.len ++ [order] ++ arr.drop (s.len + 1)
      let sorted := sortByTs (grown.take (s.len + 1)) ++ grown.drop (s.len + 1)
      (heapSet b.heap s.aid sorted, mapSet m price ⟨s.aid, s.len + 1⟩)

/-- The flag-derivation step of `AddOrder`: `OrderType == 3` sets `GTC`,
`OrderType == 4` sets `FOK` (flags already present on the input are kept,
as in the source). -/
def deriveFlags (o : Order) : Order :=
  if o.OrderType = 3 then { o with GTC := true }
  else if o.OrderType = 4 then { o with FOK := true }
  else o

theorem deriveFlags_Side (o : Order) : (deriveFlags o).Side = o.Side := by
  unfold deriveFlags; split_ifs <;> rfl

theorem deriveFlags_Size (o : Order) : (deriveFlags o).Size = o.Size := by
  unfold deriveFlags; split_ifs <;> rfl

/-- Embedding of `AddOrder`: assign `Id` and `Timestamp`, bump the counter,
derive the `GTC`/`FOK` flags from `OrderType` (3 resp. 4), then insert into
the side selected by `Side` — an unrecognised side inserts nowhere (the
counter increment stands). -/
def AddOrder (b : OrderBook) (order0 : Order) : OrderBook :=
  let order1 := { order0 with Id := b.nextOrderID, Timestamp := b.now }
  let b1 := { b with nextOrderID := b.nextOrderID + 1, now := b.now + 1 }
  let order := deriveFlags order1
  if order.Side = "buy" then
    let (h, m) := appendToLevel b1 b1.Bids order.Price order
    { b1 with heap := h, Bids := m }
  else if order.Side = "sell" then
    let (h, m) := appendToLevel b1 b1.Asks order.Price order
    { b1 with heap := h, Asks := m }
  else b1

/-- Error outcomes of a matching pass: a Go run-time panic, or exhaustion of
the model's loop fuel (not a program behaviour — theorems quantify over fuel
or exhibit a fuel on which the run completes). -/
inductive MErr where
  | goPanic
  | outOfFuel
deriving Repr, DecidableEq

/-- One fill event, as logged by the `fmt.Printf` in `MatchOrders`: the
execution (ask-side) price, the traded volume, and the two matched legs.
The log line prints `price, size, bid.Id, ask.Id`; the whole local copies of
the two legs (as read when the match was decided, before the size
reduction) are kept for analysis. -/
structure Fill where
  price : Int
  size : Int
  bid : Order
  ask : Order
deriving Repr, DecidableEq

/-- The ask-side cleanup of a fill whose ask copy reached size 0:
`ob.Asks[ak] = append(ob.Asks[ak][:j], ob.Asks[ak][j+1:]...); j--;
if len(ob.Asks[ak]) == 0 { delete(ob.Asks, ak) }`.  The slice is re-read
from the map (it may be stale relative to the local `asks`); a missing key
reads as the nil slice, on which the removal panics.  When the ask copy is
still positive nothing happens (`askSz` is the reduced copy size). -/
def askCleanup (ak : Int) (askSz : Int) (j : Int) (b : OrderBook) :
    Except MErr (OrderBook × Int) :=
  if askSz = 0 then
    match removeAt b ((mapGet b.Asks ak).getD ⟨0, 0⟩) j with
    | none => .error .goPanic
    | some (b1, s1) =>
        if ((mapGet (mapSet b1.Asks ak s1) ak).getD ⟨0, 0⟩).len = 0 then
          .ok ({ b1 with Asks := mapDelete (mapSet b1.Asks ak s1) ak }, j - 1)
        else .ok ({ b1 with Asks := mapSet b1.Asks ak s1 }, j - 1)
  else .ok (b, j)

/-- The bid-side cleanup of a fill whose bid copy reached size 0:
`bids = append(bids[:i], bids[i+1:]...); ob.Bids[bk] = bids; i--;
if len(ob.Bids[bk]) == 0 { delete(ob.Bids, bk) }` followed by `break`.
Removes from the local slice and writes it back. -/
def bidCleanup (bk : Int) (i : Int) (bidsL : GoSlice) (b : OrderBook) :
    Except MErr (OrderBook × GoSlice × Int) :=
  match removeAt b bidsL i with
  | none => .error .goPanic
  | some (b4, bidsL1) =>
      if ((mapGet (mapSet b4.Bids bk bidsL1) bk).getD ⟨0, 0⟩).len = 0 then
        .ok ({ b4 with Bids := mapDelete (mapSet b4.Bids bk bidsL1) bk },
             bidsL1, i - 1)
      else .ok ({ b4 with Bids := mapSet b4.Bids bk bidsL1 }, bidsL1, i - 1)

/-- The innermost loop of `MatchOrders` (`for j := 0; j < len(asks); j++`),
for one bid copy `bid` at index `i`.  Faithful to the source, including its
defects: the ask is read as `asks[i]` (not `asks[j]`); eligibility is
`bid.OrderType == 1 || ask.OrderType == 1`; the FOK branch tests
`vol != bid.Size && vol != ask.Size` and removes from the stale local slice
without writing back; a fill reduces only the local copies; the ask cleanup
re-reads `ob.Asks[ak]` and removes index `j` there; the bid cleanup removes
from the local `bids`, writes it back, and breaks.  Returns the book, the
fills so far, the (possibly replaced) local slices and the final value of
`i`. -/
def matchLoopJ (fuel : Nat) (bk ak : Int) (bid : Order) (i j : Int)
    (bidsL asksL : GoSlice) (b : OrderBook) (fills : List Fill) :
    Except MErr (OrderBook × List Fill × GoSlice × GoSlice × Int) :=
  match fuel with
  | 0 => .error .outOfFuel
  | fuel + 1 =>
    if j < (asksL.len : Int) then
      match sliceIdx b asksL i with
      | none => .error .goPanic
      | some ask =>
        if bid.OrderType = 1 ∨ ask.OrderType = 1 then
          if (bid.FOK ∨ ask.FOK) ∧
              (min bid.Size ask.Size ≠ bid.Size ∧
               min bid.Size ask.Size ≠ ask.Size) then
            if bid.FOK then
              match removeAt b bidsL i with
              | none => .error .goPanic
              | some (b1, bidsL1) =>
                  matchLoopJ fuel bk ak bid (i - 1) (j + 1) bidsL1 asksL b1
                    fills
            else
              match removeAt b asksL j with
              | none => .error .goPanic
              | some (b1, asksL1) =>
                  matchLoopJ fuel bk ak bid i (j - 1 + 1) bidsL asksL1 b1
                    fills
          else
            if 0 < min bid.Size ask.Size then
              match askCleanup ak (ask.Size - min bid.Size ask.Size) j b with
              | .error e => .error e
              | .ok (b3, j1) =>
                if bid.Size - min bid.Size ask.Size = 0 then
                  match bidCleanup bk i bidsL b3 with
                  | .error e => .error e
                  | .ok (b6, bidsL1, i1) =>
                      .ok (b6,
                           fills ++ [⟨ak, min bid.Size ask.Size, bid, ask⟩],
                           bidsL1, asksL, i1)
                else
                  matchLoopJ fuel bk ak
                    { bid with Size := bid.Size - min bid.Size ask.Size } i
                    (j1 + 1) bidsL asksL b3
                    (fills ++ [⟨ak, min bid.Size ask.Size, bid, ask⟩])
            else matchLoopJ fuel bk ak bid i (j + 1) bidsL asksL b fills
        else matchLoopJ fuel bk ak bid i (j + 1) bidsL asksL b fills
    else .ok (b, fills, bidsL, asksL, i)

/-- The bid-index loop of `MatchOrders` (`for i := 0; i < len(bids); i++`):
fetch the bid copy `bids[i]` and run the inner loop from `j = 0`. -/
def matchLoopI (fuel : Nat) (bk ak : Int) (i : Int) (bidsL asksL : GoSlice)
    (b : OrderBook) (fills : List Fill) :
    Except MErr (OrderBook × List Fill × GoSlice) :=
  match fuel with
  | 0 => .error .outOfFuel
  | fuel + 1 =>
    if i < (bidsL.len : Int) then
      match sliceIdx b bidsL i with
      | none => .error .goPanic
      | some bid =>
        match matchLoopJ fuel bk ak bid i 0 bidsL asksL b fills with
        | .error e => .error e
        | .ok (b1, fills1, bidsL1, asksL1, i1) =>
            matchLoopI fuel bk ak (i1 + 1) bidsL1 asksL1 b1 fills1
    else .ok (b, fills, bidsL)

/-- The ask-level loop (`for askPrice, asks := range ob.Asks`): walk a
snapshot of the ask keys, skip keys deleted before being reached, and for a
crossed pair (`bidPrice >= askPrice`) run the index loops.  The local bid
slice threads through (the source reads it once per bid level). -/
def matchAsksLoop (fuel : Nat) (bk : Int) (askKeys : List Int)
    (bidsL : GoSlice) (b : OrderBook) (fills : List Fill) :
    Except MErr (OrderBook × List Fill × GoSlice) :=
  match askKeys with
  | [] => .ok (b, fills, bidsL)
  | ak :: rest =>
    match mapGet b.Asks ak with
    | none => matchAsksLoop fuel bk rest bidsL b fills
    | some asksL =>
      if bk ≥ ak then
        match matchLoopI fuel bk ak 0 bidsL asksL b fills with
        | .error e => .error e
        | .ok (b1, fills1, bidsL1) => matchAsksLoop fuel bk rest bidsL1 b1 fills1
      else matchAsksLoop fuel bk rest bidsL b fills

/-- The bid-level loop (`for bidPrice, bids := range ob.Bids`): walk a
snapshot of the bid keys; the ask keys are snapshotted afresh for each bid
level, as Go's inner `range` expression is re-evaluated. -/
def matchBidsLoop (fuel : Nat) (bidKeys : List Int) (b : OrderBook)
    (fills : List Fill) : Except MErr (OrderBook × List Fill) :=
  match bidKeys with
  | [] => .ok (b, fills)
  | bk :: rest =>
    match mapGet b.Bids bk with
    | none => matchBidsLoop fuel rest b fills
    | some bidsL =>
      match matchAsksLoop fuel bk (mapKeys b.Asks) bidsL b fills with
      | .error e => .error e
      | .ok (b1, fills1, _) => matchBidsLoop fuel rest b1 fills1

/-- Embedding of `MatchOrders`: return unchanged if either side is empty,
otherwise run the nested level loops.  The fill list collects the
`fmt.Printf` fill events in order. -/
def MatchOrders (fuel : Nat) (b : OrderBook) :
    Except MErr (OrderBook × List Fill) :=
  if b.Bids.length = 0 ∨ b.Asks.length = 0 then .ok (b, [])
  else matchBidsLoop fuel (mapKeys b.Bids) b []

/-- The draining loop of `StopMatching` for one side: per level, keep only
the orders with the `GTC` flag (`newBids := []Order{}` builds a fresh
array, allocated here at the end of the heap); delete the level if nothing
remains, otherwise store the fresh slice.  Returns the grown heap and the
new side map. -/
def drainLevels (h : List (List Order)) :
    List (Int × GoSlice) → List (List Order) × List (Int × GoSlice)
  | [] => (h, [])
  | (p, s) :: rest =>
      let keep := ((heapGet h s.aid).take s.len).filter (fun o => o.GTC)
      if keep.length = 0 then drainLevels h rest
      else
        ((drainLevels (h ++ [keep]) rest).1,
         (p, ⟨h.length, keep.length⟩) :: (drainLevels (h ++ [keep]) rest).2)

/-- Embedding of `StopMatching`: `close(ob.stopChan)` panics if the channel
is already closed (a second call); otherwise mark it closed and drain both
sides down to their GTC-flagged orders, deleting emptied levels. -/
def StopMatching (b : OrderBook) : Except MErr OrderBook :=
  if b.stopClosed then .error .goPanic
  else
    .ok { b with
            heap := (drainLevels (drainLevels b.heap b.Bids).1 b.Asks).1,
            Bids := (drainLevels b.heap b.Bids).2,
            Asks := (drainLevels (drainLevels b.heap b.Bids).1 b.Asks).2,
            stopClosed := true }

/-- The live orders of a slice: the first `len` cells of its backing
array. -/
def liveOrders (b : OrderBook) (s : GoSlice) : List Order :=
  (heapGet b.heap s.aid).take s.len

/-- The resting orders of the bid level at price `p` (empty when the level
is absent). -/
def bidLevel (b : OrderBook) (p : Int) : List Order :=
  match mapGet b.Bids p with
  | none => []
  | some s => liveOrders b s

/-- The resting orders of the ask level at price `p`. -/
def askLevel (b : OrderBook) (p : Int) : List Order :=
  match mapGet b.Asks p with
  | none => []
  | some s => liveOrders b s

/-- All resting orders of the book, bid side then ask side, in level
iteration order. -/
def restingOrders (b : OrderBook) : List Order :=
  (b.Bids.map (fun e => liveOrders b e.2)).flatten
    ++ (b.Asks.map (fun e => liveOrders b e.2)).flatten

/-- Build a raw submitted order the way the session layer's `orderFromParts`
does: `Id`, `Timestamp` and the kind flags are unset (zero values); the
engine assigns them in `AddOrder`. -/
def mkOrder (side ty : String) (price sz : Int) : Order :=
  { Price := price, Id := 0, Ticker := "QQQ", Size := sz,
    OrderType := GetType ty, Side := side, Timestamp := 0,
    GTC := false, FOK := false }

/-- Submit a list of orders in sequence (each `AddOrder` runs under the
book mutex; this is the serialised order of acquisition). -/
def submitAll (b : OrderBook) (os : List Order) : OrderBook :=
  os.foldl AddOrder b

/-- A book built from the empty book by a sequence of submissions. -/
def bookOf (os : List Order) : OrderBook := submitAll NewOrderBook os

/-- The FOK cancellation branch of `MatchOrders` is dead code: its guard
`vol != bid.Size && vol != ask.Size` is unsatisfiable, because
`vol = min(bid.Size, ask.Size)` always equals one of the two sizes. -/
theorem fok_kill_guard_unsatisfiable (a b : Int) :
    ¬(min a b ≠ a ∧ min a b ≠ b) := by
  rcases min_choice a b with h | h <;> simp [h]

/-- Input for C1: an FOK buy of size 5 and a market sell of size 3, both at
price 100. -/
def c1Book : OrderBook :=
  bookOf [mkOrder "buy" "fok" 100 5, mkOrder "sell" "market" 100 3]

/-- C1: refuted by the code.  The FOK buy (id 0, size 5) faces a counter
order of remaining size 3 < 5.  The claim requires it to be removed with
zero fills recorded for it.  Instead the matching pass records a fill of 3
for it, then — reading the removed ask again through the stale local slice
— a second fill of 2 against the same already-removed counter-order, 5
volume in total from a size-3 order.  (The FOK kill branch never runs: its
guard is unsatisfiable, see `fok_kill_guard_unsatisfiable`.) -/
theorem C1_fok_not_atomic :
    (bidLevel c1Book 100).map (fun o => (o.FOK, o.Size)) = [(true, 5)] ∧
    (MatchOrders 100 c1Book).map
        (fun r => (r.2.map (fun f => (f.price, f.size, f.bid.Id, f.ask.Id)),
                   restingOrders r.1)) =
      .ok ([(100, 3, 0, 1), (100, 2, 0, 1)], []) :=
  ⟨rfl, rfl⟩

/-- Input for C2: a market buy of size 3 and a GTC sell of size 5, both at
price 100. -/
def c2Book : OrderBook :=
  bookOf [mkOrder "buy" "market" 100 3, mkOrder "sell" "gtc" 100 5]

/-- C2: refuted by the code.  The pass executes the fill with tradeable
volume `v = min(3, 5) = 3` and removes the fully-filled bid, but the
surviving ask (id 1) keeps stored size 5: the claim requires its remaining
size to be reduced to 2.  `MatchOrders` only decrements the sizes of local
copies (`bid := bids[i]`, `ask := asks[i]` are Go struct copies) and never
writes them back, so no resting order's stored size ever decreases. -/
theorem C2_sizes_not_reduced :
    (MatchOrders 100 c2Book).map
        (fun r => (r.2.map (fun f => (f.price, f.size, f.bid.Id, f.ask.Id)),
                   (askLevel r.1 100).map (fun o => (o.Id, o.Size)),
                   bidLevel r.1 100)) =
      .ok ([(100, 3, 0, 1)], [(1, 5)], []) :=
  rfl

/-- Input for C3: bid levels 100 (market, size 1) and 101 (GTC, size 1);
ask levels 99 and 98 (GTC, size 1 each).  The best crossed pair is
(101, 98). -/
def c3Book : OrderBook :=
  bookOf [mkOrder "buy" "market" 100 1, mkOrder "buy" "gtc" 101 1,
          mkOrder "sell" "gtc" 99 1, mkOrder "sell" "gtc" 98 1]

/-- C3: refuted by the code.  With level iteration in the modelled map
order (the insertion order — one possible Go map iteration order), the pass
executes its only fill between bid level 100 and ask level 99 although the
current best bid level is 101 and the current best ask level is 98, and it
leaves the crossed pair (101, 98) resting.  `MatchOrders` walks
`range ob.Bids` / `range ob.Asks` in arbitrary map order and trades at any
crossed pair it meets; it never derives best prices. -/
theorem C3_trades_non_best_pair :
    (mapKeys c3Book.Bids = [100, 101] ∧ mapKeys c3Book.Asks = [99, 98]) ∧
    (MatchOrders 100 c3Book).map
        (fun r => (r.2.map (fun f => (f.bid.Price, f.ask.Price, f.size)),
                   mapKeys r.1.Bids, mapKeys r.1.Asks)) =
      .ok ([(100, 99, 1)], [101], [98]) :=
  ⟨⟨rfl, rfl⟩, rfl⟩

/-- Input for C4: one bid level 100 `[GTC 4, GTC 9]` and one ask level 100
`[market 2, GTC 9, market 9]`. -/
def c4Book : OrderBook :=
  bookOf [mkOrder "buy" "gtc" 100 4, mkOrder "buy" "gtc" 100 9,
          mkOrder "sell" "market" 100 2, mkOrder "sell" "gtc" 100 9,
          mkOrder "sell" "market" 100 9]

/-- C4: refuted by the code.  The first matching pass completes normally
with two fills, but the in-place element shifts performed through
`ob.Asks[p]` are read back through the stale local `asks` slice with the
bid index (`asks[i]`), so the pass ends with bid (id 0, GTC, size 4) and
ask (id 4, market, size 9) both resting and crossed.  A second pass with no
intervening submission then executes a further fill of size 4 — match is
not idempotent. -/
theorem C4_second_pass_fills :
    (MatchOrders 100 c4Book).map
        (fun r => r.2.map (fun f => (f.price, f.size, f.bid.Id, f.ask.Id))) =
      .ok [(100, 2, 0, 2), (100, 9, 1, 4)] ∧
    ((MatchOrders 100 c4Book).bind (fun r => MatchOrders 100 r.1)).map
        (fun r => r.2.map (fun f => (f.price, f.size, f.bid.Id, f.ask.Id))) =
      .ok [(100, 4, 0, 4)] :=
  ⟨rfl, rfl⟩

/-- Input for C5's counterexample: a GTC buy and a GTC sell, both size 5 at
price 100 — crossed, positive size, mutually compatible resting kinds. -/
def c5Book : OrderBook :=
  bookOf [mkOrder "buy" "gtc" 100 5, mkOrder "sell" "gtc" 100 5]

/-- C5: counterexample.  Two crossing GTC orders of positive size do not
trade: the pass returns the book unchanged with no fills, because the
eligibility test in `MatchOrders` is `bid.OrderType == 1 ||
ask.OrderType == 1` and GTC orders have `OrderType == 3`. -/
theorem C5_gtc_pair_no_trade :
    (bidLevel c5Book 100).map (fun o => (o.OrderType, o.Size)) = [(3, 5)] ∧
    (askLevel c5Book 100).map (fun o => (o.OrderType, o.Size)) = [(3, 5)] ∧
    MatchOrders 100 c5Book = .ok (c5Book, []) :=
  ⟨rfl, rfl, rfl⟩

/-- C7: refuted by the code.  The first `StopMatching` succeeds; a second
call reaches `close(ob.stopChan)` on an already-closed channel, which is a
Go run-time panic — not a no-op and not a reported error. -/
theorem C7_second_shutdown_panics :
    StopMatching NewOrderBook = .ok { NewOrderBook with stopClosed := true } ∧
    StopMatching { NewOrderBook with stopClosed := true } =
      .error .goPanic :=
  ⟨rfl, rfl⟩

/-- `AddOrder` always increments the id counter by exactly one, whatever
the order's side or kind. -/
theorem AddOrder_nextOrderID (b : OrderBook) (o : Order) :
    (AddOrder b o).nextOrderID = b.nextOrderID + 1 := by
  simp only [AddOrder]; split_ifs <;> rfl

/-- After submitting a sequence, the counter has advanced by its length. -/
theorem submitAll_nextOrderID (os : List Order) (b : OrderBook) :
    (submitAll b os).nextOrderID = b.nextOrderID + os.length := by
  induction os generalizing b with
  | nil => simp [submitAll]
  | cons o os ih =>
      have h := ih (AddOrder b o)
      simp only [submitAll, List.foldl_cons] at h ⊢
      rw [h, AddOrder_nextOrderID]
      simp only [List.length_cons]
      push_cast
      ring

/-- The id `AddOrder` assigns to the k-th submission (0-based) of the
sequence `os` starting from book `b`: the source sets
`order.Id = ob.nextOrderID` before incrementing, so the k-th submission
receives the counter value reached after the first `k` submissions. -/
def assignedId (b : OrderBook) (os : List Order) (k : Nat) : Int :=
  (submitAll b (os.take k)).nextOrderID

/-- C9: confirmed.  Under the book mutex, submissions are serialised; the
id assigned to the k-th submission in acquisition order is the initial
counter plus k, so ids of successive submissions are strictly increasing —
hence unique for the book's lifetime and never reused. -/
theorem C9_ids_strictly_increasing (b : OrderBook) (os : List Order)
    (k1 k2 : Nat) (h1 : k1 < k2) (h2 : k2 ≤ os.length) :
    assignedId b os k1 = b.nextOrderID + k1 ∧
    assignedId b os k2 = b.nextOrderID + k2 ∧
    assignedId b os k1 < assignedId b os k2 := by
  have l1 : (os.take k1).length = k1 :=
    List.length_take_of_le (le_of_lt (lt_of_lt_of_le h1 h2))
  have l2 : (os.take k2).length = k2 := List.length_take_of_le h2
  have e1 := submitAll_nextOrderID (os.take k1) b
  have e2 := submitAll_nextOrderID (os.take k2) b
  rw [l1] at e1
  rw [l2] at e2
  refine ⟨e1, e2, ?_⟩
  rw [assignedId, assignedId, e1, e2]
  have : (k1 : Int) < (k2 : Int) := by exact_mod_cast h1
  omega

/-- Submission sequence for the C9 witness. -/
def c9wOrders : List Order :=
  [mkOrder "buy" "gtc" 100 5, mkOrder "sell" "gtc" 101 7]

/-- Witness for C9 at a concrete two-order sequence. -/
theorem C9_ids_strictly_increasing_witness :
    assignedId NewOrderBook c9wOrders 0 = NewOrderBook.nextOrderID + (0 : Nat) ∧
    assignedId NewOrderBook c9wOrders 1 = NewOrderBook.nextOrderID + (1 : Nat) ∧
    assignedId NewOrderBook c9wOrders 0 < assignedId NewOrderBook c9wOrders 1 :=
  C9_ids_strictly_increasing NewOrderBook c9wOrders 0 1 (by decide) (by decide)

/-- C10: confirmed.  An order whose `Side` is neither `"buy"` nor `"sell"`
falls through both insertion branches of `AddOrder`: the bid and ask
collections (and the heap) are untouched, yet the id counter was already
incremented, so the order is silently dropped while its id is consumed. -/
theorem C10_unknown_side_dropped (b : OrderBook) (o : Order)
    (h1 : o.Side ≠ "buy") (h2 : o.Side ≠ "sell") :
    (AddOrder b o).Bids = b.Bids ∧ (AddOrder b o).Asks = b.Asks ∧
    (AddOrder b o).heap = b.heap ∧
    (AddOrder b o).nextOrderID = b.nextOrderID + 1 := by
  have hside :
      (deriveFlags { o with Id := b.nextOrderID, Timestamp := b.now }).Side
        = o.Side :=
    deriveFlags_Side _
  simp only [AddOrder]
  split_ifs with hb hs
  · exact absurd (hside ▸ hb) h1
  · exact absurd (hside ▸ hs) h2
  · exact ⟨rfl, rfl, rfl, rfl⟩

/-- Witness for C10 with a `"hold"`-sided order. -/
theorem C10_unknown_side_dropped_witness :
    (AddOrder NewOrderBook (mkOrder "hold" "gtc" 100 5)).Bids =
      NewOrderBook.Bids ∧
    (AddOrder NewOrderBook (mkOrder "hold" "gtc" 100 5)).Asks =
      NewOrderBook.Asks ∧
    (AddOrder NewOrderBook (mkOrder "hold" "gtc" 100 5)).heap =
      NewOrderBook.heap ∧
    (AddOrder NewOrderBook (mkOrder "hold" "gtc" 100 5)).nextOrderID =
      NewOrderBook.nextOrderID + 1 :=
  C10_unknown_side_dropped NewOrderBook (mkOrder "hold" "gtc" 100 5)
    (by decide) (by decide)

/-- Every order stored in any backing array of the book's heap satisfies
`P`.  Matching never writes order values into arrays (it only shifts
existing elements), so such predicates are preserved by every pass. -/
def HeapElems (P : Order → Prop) (b : OrderBook) : Prop :=
  ∀ arr ∈ b.heap, ∀ o ∈ arr, P o

/-- A fill whose legs include a market order (`OrderType == 1`). -/
def MarketLeg (f : Fill) : Prop :=
  f.bid.OrderType = 1 ∨ f.ask.OrderType = 1

theorem heapGet_elems {P : Order → Prop} {b : OrderBook} (hP : HeapElems P b)
    (aid : Nat) : ∀ o ∈ heapGet b.heap aid, P o := by
  intro o ho
  unfold heapGet at ho
  rcases lt_or_le aid b.heap.length with h | h
  · rw [List.getD_eq_getElem _ _ h] at ho
    exact hP _ (List.getElem_mem h) o ho
  · rw [List.getD_eq_default _ _ h] at ho
    exact absurd ho (List.not_mem_nil o)

theorem mem_removeShift {arr : List Order} {j len : Nat} {o : Order}
    (h : o ∈ removeShift arr j len) : o ∈ arr := by
  unfold removeShift at h
  rcases List.mem_append.1 h with h | h
  · rcases List.mem_append.1 h with h | h
    · exact List.take_subset _ _ h
    · exact List.drop_subset _ _ (List.take_subset _ _ h)
  · exact List.drop_subset _ _ h

theorem heapElems_set {P : Order → Prop} {b : OrderBook} {aid : Nat}
    {arr : List Order} (hP : HeapElems P b) (h : ∀ o ∈ arr, P o) :
    HeapElems P { b with heap := heapSet b.heap aid arr } := by
  intro a ha o ho
  have ha2 : a ∈ b.heap.set aid arr := ha
  rcases List.mem_or_eq_of_mem_set ha2 with h1 | h1
  · exact hP a h1 o ho
  · exact h o (h1 ▸ ho)

theorem removeAt_heapElems {P : Order → Prop} {b : OrderBook} {s : GoSlice}
    {j : Int} {b1 : OrderBook} {s1 : GoSlice}
    (h : removeAt b s j = some (b1, s1)) (hP : HeapElems P b) :
    HeapElems P b1 := by
  unfold removeAt at h
  split at h
  · simp only [Option.some.injEq, Prod.mk.injEq] at h
    obtain ⟨h1, -⟩ := h
    subst h1
    exact heapElems_set hP
      (fun o ho => heapGet_elems hP _ o (mem_removeShift ho))
  · exact Option.noConfusion h

theorem askCleanup_heapElems {P : Order → Prop} {ak askSz j : Int}
    {b : OrderBook} {r : OrderBook × Int}
    (h : askCleanup ak askSz j b = .ok r) (hP : HeapElems P b) :
    HeapElems P r.1 := by
  unfold askCleanup at h
  split at h
  · split at h
    · exact Except.noConfusion h
    · rename_i b1 s1 hrem
      have hb1 : HeapElems P b1 := removeAt_heapElems hrem hP
      split at h <;>
        · simp only [Except.ok.injEq] at h
          subst h
          exact hb1
  · simp only [Except.ok.injEq] at h
    subst h
    exact hP

theorem bidCleanup_heapElems {P : Order → Prop} {bk i : Int}
    {bidsL : GoSlice} {b : OrderBook} {r : OrderBook × GoSlice × Int}
    (h : bidCleanup bk i bidsL b = .ok r) (hP : HeapElems P b) :
    HeapElems P r.1 := by
  unfold bidCleanup at h
  split at h
  · exact Except.noConfusion h
  · rename_i b4 bidsL1 hrem
    have hb4 : HeapElems P b4 := removeAt_heapElems hrem hP
    split at h <;>
      · simp only [Except.ok.injEq] at h
        subst h
        exact hb4

theorem matchLoopJ_inv (P : Order → Prop) :
    ∀ (fuel : Nat) (bk ak : Int) (bid : Order) (i j : Int)
      (bidsL asksL : GoSlice) (b : OrderBook) (fills : List Fill)
      (res : OrderBook × List Fill × GoSlice × GoSlice × Int),
      matchLoopJ fuel bk ak bid i j bidsL asksL b fills = .ok res →
      HeapElems P b → (∀ f ∈ fills, MarketLeg f) →
      HeapElems P res.1 ∧ ∀ f ∈ res.2.1, MarketLeg f := by
  intro fuel
  induction fuel with
  | zero =>
      intro bk ak bid i j bidsL asksL b fills res h hP hF
      exact Except.noConfusion h
  | succ fuel ih =>
      intro bk ak bid i j bidsL asksL b fills res h hP hF
      unfold matchLoopJ at h
      split at h
      · -- j < len(asks)
        split at h
        · -- ask := asks[i] panicked
          exact Except.noConfusion h
        · rename_i ask hask
          split at h
          · -- eligible: a market leg is present
            rename_i helig
            split at h
            · -- FOK kill guard: unsatisfiable
              rename_i hguard
              exact absurd hguard.2 (fok_kill_guard_unsatisfiable _ _)
            · split at h
              · -- 0 < vol: a fill executes
                rename_i hguard hvol
                split at h
                · exact Except.noConfusion h
                · rename_i b3 j1 hclean
                  have hb3 : HeapElems P b3 :=
                    askCleanup_heapElems hclean hP
                  have hF1 :
                      ∀ f ∈ fills ++
                        [(⟨ak, min bid.Size ask.Size, bid, ask⟩ : Fill)],
                        MarketLeg f := by
                    intro f hf
                    rcases List.mem_append.1 hf with hf | hf
                    · exact hF f hf
                    · rw [List.mem_singleton.1 hf]
                      exact helig
                  split at h
                  · -- bid copy exhausted: cleanup then break
                    split at h
                    · exact Except.noConfusion h
                    · rename_i b6 bidsL1 i1 hclean6
                      have hb6 : HeapElems P b6 :=
                        bidCleanup_heapElems hclean6 hb3
                      simp only [Except.ok.injEq] at h
                      subst h
                      exact ⟨hb6, hF1⟩
                  · exact ih bk ak _ i (j1 + 1) bidsL asksL b3 _ res h hb3 hF1
              · exact ih bk ak bid i (j + 1) bidsL asksL b fills res h hP hF
          · exact ih bk ak bid i (j + 1) bidsL asksL b fills res h hP hF
      · -- loop exit
        simp only [Except.ok.injEq] at h
        subst h
        exact ⟨hP, hF⟩

theorem matchLoopI_inv (P : Order → Prop) :
    ∀ (fuel : Nat) (bk ak : Int) (i : Int) (bidsL asksL : GoSlice)
      (b : OrderBook) (fills : List Fill)
      (res : OrderBook × List Fill × GoSlice),
      matchLoopI fuel bk ak i bidsL asksL b fills = .ok res →
      HeapElems P b → (∀ f ∈ fills, MarketLeg f) →
      HeapElems P res.1 ∧ ∀ f ∈ res.2.1, MarketLeg f := by
  intro fuel
  induction fuel with
  | zero =>
      intro bk ak i bidsL asksL b fills res h hP hF
      exact Except.noConfusion h
  | succ fuel ih =>
      intro bk ak i bidsL asksL b fills res h hP hF
      unfold matchLoopI at h
      split at h
      · split at h
        · exact Except.noConfusion h
        · rename_i bid hbid
          split at h
          · exact Except.noConfusion h
          · rename_i b1 fills1 bidsL1 asksL1 i1 hJ
            obtain ⟨hb1, hf1⟩ :=
              matchLoopJ_inv P fuel bk ak bid i 0 bidsL asksL b fills
                (b1, fills1, bidsL1, asksL1, i1) hJ hP hF
            exact ih bk ak (i1 + 1) bidsL1 asksL1 b1 fills1 res h hb1 hf1
      · simp only [Except.ok.injEq] at h
        subst h
        exact ⟨hP, hF⟩

theorem matchAsksLoop_inv (P : Order → Prop) (fuel : Nat) (bk : Int) :
    ∀ (askKeys : List Int) (bidsL : GoSlice) (b : OrderBook)
      (fills : List Fill) (res : OrderBook × List Fill × GoSlice),
      matchAsksLoop fuel bk askKeys bidsL b fills = .ok res →
      HeapElems P b → (∀ f ∈ fills, MarketLeg f) →
      HeapElems P res.1 ∧ ∀ f ∈ res.2.1, MarketLeg f := by
  intro askKeys
  induction askKeys with
  | nil =>
      intro bidsL b fills res h hP hF
      simp only [matchAsksLoop, Except.ok.injEq] at h
      subst h
      exact ⟨hP, hF⟩
  | cons ak rest ih =>
      intro bidsL b fills res h hP hF
      unfold matchAsksLoop at h
      split at h
      · exact ih bidsL b fills res h hP hF
      · rename_i asksL hget
        split at h
        · split at h
          · exact Except.noConfusion h
          · rename_i b1 fills1 bidsL1 hI
            obtain ⟨hb1, hf1⟩ :=
              matchLoopI_inv P fuel bk ak 0 bidsL asksL b fills
                (b1, fills1, bidsL1) hI hP hF
            exact ih bidsL1 b1 fills1 res h hb1 hf1
        · exact ih bidsL b fills res h hP hF

theorem matchBidsLoop_inv (P : Order → Prop) (fuel : Nat) :
    ∀ (bidKeys : List Int) (b : OrderBook) (fills : List Fill)
      (res : OrderBook × List Fill),
      matchBidsLoop fuel bidKeys b fills = .ok res →
      HeapElems P b → (∀ f ∈ fills, MarketLeg f) →
      HeapElems P res.1 ∧ ∀ f ∈ res.2, MarketLeg f := by
  intro bidKeys
  induction bidKeys with
  | nil =>
      intro b fills res h hP hF
      simp only [matchBidsLoop, Except.ok.injEq] at h
      subst h
      exact ⟨hP, hF⟩
  | cons bk rest ih =>
      intro b fills res h hP hF
      unfold matchBidsLoop at h
      split at h
      · exact ih b fills res h hP hF
      · rename_i bidsL hget
        split at h
        · exact Except.noConfusion h
        · rename_i b1 fills1 bidsL1 hA
          obtain ⟨hb1, hf1⟩ :=
            matchAsksLoop_inv P fuel bk (mapKeys b.Asks) bidsL b fills
              (b1, fills1, bidsL1) hA hP hF
          exact ih b1 fills1 res h hb1 hf1

/-- A completed matching pass preserves any heap predicate (the pass never
stores order values, it only shifts and drops them), and every fill it
records carries at least one market leg. -/
theorem MatchOrders_inv (P : Order → Prop) (fuel : Nat) (b : OrderBook)
    (res : OrderBook × List Fill) (h : MatchOrders fuel b = .ok res)
    (hP : HeapElems P b) :
    HeapElems P res.1 ∧ ∀ f ∈ res.2, MarketLeg f := by
  unfold MatchOrders at h
  split at h
  · simp only [Except.ok.injEq] at h
    subst h
    exact ⟨hP, by intro f hf; exact absurd hf (List.not_mem_nil f)⟩
  · exact matchBidsLoop_inv P fuel (mapKeys b.Bids) b [] res h hP
      (fun f hf => absurd hf (List.not_mem_nil f))

/-- C5: amended claim, proved.  A completed matching pass executes a trade
only when at least one leg is a market order (`OrderType == 1`): the
eligibility test in `MatchOrders` is `bid.OrderType == 1 ||
ask.OrderType == 1`, so no fill ever pairs two non-market orders —
"mutually compatible resting kinds" (e.g. two crossing GTC orders, see the
counterexample `C5_gtc_pair_no_trade`) never trade. -/
theorem C5_trade_requires_market_leg (fuel : Nat) (b : OrderBook)
    (res : OrderBook × List Fill) (h : MatchOrders fuel b = .ok res) :
    ∀ f ∈ res.2, f.bid.OrderType = 1 ∨ f.ask.OrderType = 1 :=
  (MatchOrders_inv (fun _ => True) fuel b res h
    (fun _ _ _ _ => trivial)).2

/-- Input for the C5 witness: a market buy against a GTC sell, producing a
fill. -/
def c5wBook : OrderBook :=
  bookOf [mkOrder "buy" "market" 100 3, mkOrder "sell" "gtc" 100 5]

/-- The completed result of the C5 witness pass. -/
def c5wRes : OrderBook × List Fill :=
  (MatchOrders 100 c5wBook).toOption.getD (NewOrderBook, [])

/-- The single fill of the C5 witness pass. -/
def c5wFill : Fill :=
  c5wRes.2.headD ⟨0, 0, mkOrder "x" "x" 0 0, mkOrder "x" "x" 0 0⟩

/-- Witness for C5's amended claim on a concrete completed pass. -/
theorem C5_trade_requires_market_leg_witness :
    c5wFill.bid.OrderType = 1 ∨ c5wFill.ask.OrderType = 1 :=
  C5_trade_requires_market_leg 100 c5wBook c5wRes (by rfl) c5wFill (by decide)

theorem mem_insertTs {o x : Order} {l : List Order}
    (h : o ∈ insertTs x l) : o = x ∨ o ∈ l := by
  induction l with
  | nil => exact Or.inl (List.mem_singleton.1 h)
  | cons y ys ih =>
      unfold insertTs at h
      split at h
      · rcases List.mem_cons.1 h with h | h
        · exact Or.inl h
        · exact Or.inr h
      · rcases List.mem_cons.1 h with h | h
        · exact Or.inr (h ▸ List.mem_cons_self y ys)
        · rcases ih h with h | h
          · exact Or.inl h
          · exact Or.inr (List.mem_cons_of_mem y h)

theorem mem_sortByTs {o : Order} {l : List Order}
    (h : o ∈ sortByTs l) : o ∈ l := by
  induction l with
  | nil => exact h
  | cons x xs ih =>
      unfold sortByTs at h
      rcases mem_insertTs h with h | h
      · exact h ▸ List.mem_cons_self x xs
      · exact List.mem_cons_of_mem x (ih h)

/-- Orders with positive remaining size. -/
def SizePos (o : Order) : Prop := 0 < o.Size

theorem appendToLevel_heapElems {b : OrderBook}
    {m : List (Int × GoSlice)} {price : Int} {order : Order}
    (hP : HeapElems SizePos b) (ho : SizePos order) :
    ∀ arr ∈ (appendToLevel b m price order).1, ∀ o ∈ arr, SizePos o := by
  unfold appendToLevel
  split
  · intro arr harr o hoo
    rcases List.mem_append.1 harr with h | h
    · exact hP arr h o hoo
    · rw [List.mem_singleton.1 h] at hoo
      rw [List.mem_singleton.1 hoo]
      exact ho
  · rename_i s hs
    intro arr harr o hoo
    have harr2 : arr ∈ b.heap.set s.aid
        (sortByTs (((heapGet b.heap s.aid).take s.len ++ [order] ++
            (heapGet b.heap s.aid).drop (s.len + 1)).take (s.len + 1)) ++
          ((heapGet b.heap s.aid).take s.len ++ [order] ++
            (heapGet b.heap s.aid).drop (s.len + 1)).drop (s.len + 1)) :=
      harr
    have hgrown : ∀ x ∈ (heapGet b.heap s.aid).take s.len ++ [order] ++
        (heapGet b.heap s.aid).drop (s.len + 1), SizePos x := by
      intro x hx
      rcases List.mem_append.1 hx with hx | hx
      · rcases List.mem_append.1 hx with hx | hx
        · exact heapGet_elems hP s.aid x (List.take_subset _ _ hx)
        · rw [List.mem_singleton.1 hx]
          exact ho
      · exact heapGet_elems hP s.aid x (List.drop_subset _ _ hx)
    rcases List.mem_or_eq_of_mem_set harr2 with h | h
    · exact hP arr h o hoo
    · subst h
      rcases List.mem_append.1 hoo with h | h
      · exact hgrown o (List.take_subset _ _ (mem_sortByTs h))
      · exact hgrown o (List.drop_subset _ _ h)

/-- Submitting an order of positive size preserves positivity of all
stored sizes: `AddOrder` never mutates an existing order and the inserted
copy keeps the submitted size. -/
theorem AddOrder_sizePos {b : OrderBook} {o : Order}
    (hP : HeapElems SizePos b) (ho : 0 < o.Size) :
    HeapElems SizePos (AddOrder b o) := by
  have hoS : SizePos (deriveFlags { o with Id := b.nextOrderID, Timestamp := b.now }) := by
    show 0 < _
    rw [deriveFlags_Size]
    exact ho
  simp only [AddOrder]
  split_ifs with hb hs
  · exact appendToLevel_heapElems hP hoS
  · exact appendToLevel_heapElems hP hoS
  · exact hP

/-- Book states reachable from a fresh book by submissions of positive-size
orders and completed matching passes. -/
inductive Reachable : OrderBook → Prop where
  | init : Reachable NewOrderBook
  | submit {b : OrderBook} (o : Order) : Reachable b → 0 < o.Size →
      Reachable (AddOrder b o)
  | matchStep {b : OrderBook} (fuel : Nat) {b2 : OrderBook}
      {fills : List Fill} : Reachable b →
      MatchOrders fuel b = .ok (b2, fills) → Reachable b2

theorem Reachable_heapSizePos {b : OrderBook} (h : Reachable b) :
    HeapElems SizePos b := by
  induction h with
  | init => intro arr harr o ho; exact absurd harr (List.not_mem_nil _)
  | submit o hr hpos ih => exact AddOrder_sizePos ih hpos
  | matchStep fuel hr hm ih =>
      exact (MatchOrders_inv SizePos fuel _ _ hm ih).1

theorem mem_restingOrders_heap {b : OrderBook} {o : Order}
    (h : o ∈ restingOrders b) : ∃ aid, o ∈ heapGet b.heap aid := by
  unfold restingOrders at h
  rcases List.mem_append.1 h with h | h <;>
  · obtain ⟨l, hl, hol⟩ := List.mem_flatten.1 h
    obtain ⟨e, he, rfl⟩ := List.mem_map.1 hl
    exact ⟨e.2.aid, List.take_subset _ _ hol⟩

/-- C8: confirmed.  On every book state reachable from the empty book by
submissions of positive-size orders and completed matching passes, every
resting order has size > 0.  (The code in fact never decrements a stored
size — fills reduce only local copies, see C2 — so stored sizes always
equal the submitted ones.) -/
theorem C8_resting_sizes_positive {b : OrderBook} (hr : Reachable b) :
    ∀ o ∈ restingOrders b, 0 < o.Size := by
  intro o ho
  obtain ⟨aid, hmem⟩ := mem_restingOrders_heap ho
  exact heapGet_elems (Reachable_heapSizePos hr) aid o hmem

/-- The order resting in the C8 witness book: a GTC buy of size 5 after id
and timestamp assignment. -/
def c8wResting : Order :=
  { Price := 100, Id := 0, Ticker := "QQQ", Size := 5, OrderType := 3,
    Side := "buy", Timestamp := 0, GTC := true, FOK := false }

/-- Witness for C8 on the book holding exactly one submitted GTC buy. -/
theorem C8_resting_sizes_positive_witness : 0 < c8wResting.Size :=
  C8_resting_sizes_positive
    (Reachable.submit (mkOrder "buy" "gtc" 100 5) Reachable.init
      (by decide))
    c8wResting (by decide)

theorem heapGet_append {h ext : List (List Order)} {aid : Nat}
    (ha : aid < h.length) : heapGet (h ++ ext) aid = heapGet h aid :=
  List.getD_append h ext [] aid ha

theorem heapGet_snoc_self (h : List (List Order)) (a : List Order) :
    heapGet (h ++ [a]) h.length = a := by
  unfold heapGet
  rw [List.getD_append_right h [a] [] h.length le_rfl, Nat.sub_self]
  rfl

theorem mapGet_mem {m : List (Int × GoSlice)} {p : Int} {s : GoSlice}
    (h : mapGet m p = some s) : (p, s) ∈ m := by
  induction m with
  | nil => exact Option.noConfusion h
  | cons e rest ih =>
      obtain ⟨p0, s0⟩ := e
      rw [mapGet] at h
      split at h
      · rename_i hpe
        rw [Option.some.injEq] at h
        subst h
        subst hpe
        exact List.mem_cons_self _ _
      · exact List.mem_cons_of_mem _ (ih h)

theorem mapGet_eq_none_of_not_mem {m : List (Int × GoSlice)} {p : Int}
    (h : p ∉ mapKeys m) : mapGet m p = none := by
  induction m with
  | nil => rfl
  | cons e rest ih =>
      obtain ⟨p0, s0⟩ := e
      rw [mapGet]
      rw [if_neg, ih]
      · intro hmem
        exact h (List.mem_cons_of_mem _ hmem)
      · intro hpe
        exact h (hpe ▸ List.mem_cons_self _ _)

theorem drainLevels_heap_ext (m : List (Int × GoSlice)) :
    ∀ h : List (List Order), ∃ ext, (drainLevels h m).1 = h ++ ext := by
  induction m with
  | nil => intro h; exact ⟨[], by simp [drainLevels]⟩
  | cons e rest ih =>
      obtain ⟨p0, s0⟩ := e
      intro h
      simp only [drainLevels]
      split
      · exact ih h
      · obtain ⟨ext, hext⟩ :=
          ih (h ++ [((heapGet h s0.aid).take s0.len).filter (fun o => o.GTC)])
        refine ⟨[((heapGet h s0.aid).take s0.len).filter (fun o => o.GTC)]
          ++ ext, ?_⟩
        rw [hext, List.append_assoc]

theorem drainLevels_get_none (m : List (Int × GoSlice)) :
    ∀ (h : List (List Order)) (p : Int), mapGet m p = none →
      mapGet (drainLevels h m).2 p = none := by
  induction m with
  | nil => intro h p _; rfl
  | cons e rest ih =>
      obtain ⟨p0, s0⟩ := e
      intro h p hp
      rw [mapGet] at hp
      split at hp
      · exact Option.noConfusion hp
      · rename_i hne
        simp only [drainLevels]
        split
        · exact ih h p hp
        · rw [mapGet, if_neg hne]
          exact ih _ p hp

theorem drainLevels_entry_aid (m : List (Int × GoSlice)) :
    ∀ h : List (List Order), ∀ e2 ∈ (drainLevels h m).2,
      e2.2.aid < (drainLevels h m).1.length := by
  induction m with
  | nil =>
      intro h e2 he2
      exact absurd he2 (List.not_mem_nil e2)
  | cons e rest ih =>
      obtain ⟨p0, s0⟩ := e
      intro h e2 he2
      simp only [drainLevels] at he2 ⊢
      split at he2
      · rename_i hk0
        rw [if_pos hk0]
        exact ih h e2 he2
      · rename_i hk0
        rw [if_neg hk0]
        rcases List.mem_cons.1 he2 with he2 | he2
        · subst he2
          obtain ⟨ext, hext⟩ := drainLevels_heap_ext rest
            (h ++ [((heapGet h s0.aid).take s0.len).filter (fun o => o.GTC)])
          dsimp only
          rw [hext]
          simp [List.length_append]
        · exact ih _ e2 he2

theorem drainLevels_entries (m : List (Int × GoSlice)) :
    ∀ h : List (List Order), (∀ e ∈ m, e.2.aid < h.length) →
      ∀ e2 ∈ (drainLevels h m).2, ∃ e ∈ m,
        (heapGet (drainLevels h m).1 e2.2.aid).take e2.2.len =
          ((heapGet h e.2.aid).take e.2.len).filter (fun o => o.GTC) := by
  induction m with
  | nil =>
      intro h hv e2 he2
      exact absurd he2 (List.not_mem_nil e2)
  | cons e rest ih =>
      obtain ⟨p0, s0⟩ := e
      intro h hv e2 he2
      simp only [drainLevels] at he2 ⊢
      split at he2
      · rename_i hk0
        rw [if_pos hk0]
        obtain ⟨e1, he1, heq⟩ :=
          ih h (fun x hx => hv x (List.mem_cons_of_mem _ hx)) e2 he2
        exact ⟨e1, List.mem_cons_of_mem _ he1, heq⟩
      · rename_i hk0
        rw [if_neg hk0]
        rcases List.mem_cons.1 he2 with he2 | he2
        · subst he2
          refine ⟨(p0, s0), List.mem_cons_self _ _, ?_⟩
          obtain ⟨ext, hext⟩ := drainLevels_heap_ext rest
            (h ++ [((heapGet h s0.aid).take s0.len).filter (fun o => o.GTC)])
          dsimp only
          rw [hext, heapGet_append (by simp), heapGet_snoc_self,
              List.take_length]
        · obtain ⟨e1, he1, heq⟩ := ih _
            (fun x hx => lt_of_lt_of_le
              (hv x (List.mem_cons_of_mem _ hx)) (by simp)) e2 he2
          refine ⟨e1, List.mem_cons_of_mem _ he1, ?_⟩
          rw [heq, heapGet_append (hv e1 (List.mem_cons_of_mem _ he1))]

theorem drainLevels_get_some (m : List (Int × GoSlice)) :
    ∀ (h : List (List Order)) (p : Int) (s : GoSlice),
      (∀ e ∈ m, e.2.aid < h.length) → (mapKeys m).Nodup →
      mapGet m p = some s →
      if (((heapGet h s.aid).take s.len).filter (fun o => o.GTC)).length = 0
      then mapGet (drainLevels h m).2 p = none
      else ∃ s2, mapGet (drainLevels h m).2 p = some s2 ∧
        (heapGet (drainLevels h m).1 s2.aid).take s2.len =
          ((heapGet h s.aid).take s.len).filter (fun o => o.GTC) := by
  induction m with
  | nil => intro h p s hv hnd hp; exact Option.noConfusion hp
  | cons e rest ih =>
      obtain ⟨p0, s0⟩ := e
      intro h p s hv hnd hp
      have hnd0 : p0 ∉ mapKeys rest := (List.nodup_cons.1 hnd).1
      have hndr : (mapKeys rest).Nodup := (List.nodup_cons.1 hnd).2
      rw [mapGet] at hp
      by_cases hpe : p = p0
      · rw [if_pos hpe, Option.some.injEq] at hp
        subst hp
        simp only [drainLevels]
        split
        · rename_i hk
          exact drainLevels_get_none rest h p
            (mapGet_eq_none_of_not_mem (hpe ▸ hnd0))
        · rename_i hk
          refine ⟨⟨h.length,
            (((heapGet h s0.aid).take s0.len).filter
              (fun o => o.GTC)).length⟩, ?_, ?_⟩
          · rw [mapGet, if_pos hpe]
          · obtain ⟨ext, hext⟩ := drainLevels_heap_ext rest
              (h ++ [((heapGet h s0.aid).take s0.len).filter
                (fun o => o.GTC)])
            dsimp only
            rw [hext, heapGet_append (by simp), heapGet_snoc_self,
                List.take_length]
      · rw [if_neg hpe] at hp
        have hmem := mapGet_mem hp
        have haid : s.aid < h.length := hv (p, s) (List.mem_cons_of_mem _ hmem)
        simp only [drainLevels]
        by_cases hk0 : (((heapGet h s0.aid).take s0.len).filter
            (fun o => o.GTC)).length = 0
        · rw [if_pos hk0]
          exact ih h p s (fun x hx => hv x (List.mem_cons_of_mem _ hx)) hndr hp
        · rw [if_neg hk0]
          have hres := ih
            (h ++ [((heapGet h s0.aid).take s0.len).filter (fun o => o.GTC)])
            p s
            (fun x hx => lt_of_lt_of_le
              (hv x (List.mem_cons_of_mem _ hx)) (by simp)) hndr hp
          rw [heapGet_append haid] at hres
          split at hres
          · rename_i hC
            rw [if_pos hC, mapGet, if_neg hpe]
            exact hres
          · rename_i hC
            rw [if_neg hC]
            obtain ⟨s2, h1, h2⟩ := hres
            refine ⟨s2, ?_, h2⟩
            rw [mapGet, if_neg hpe]
            exact h1

/-- Summary form of the draining lemmas: after draining map `m` over heap
`h`, looked up through any heap extending the drained heap, every level
equals the GTC-filter of the original level, and a level key survives
exactly when that filter is nonempty. -/
theorem drainLevels_level_filter (m : List (Int × GoSlice))
    (h hfin : List (List Order))
    (hv : ∀ e ∈ m, e.2.aid < h.length) (hnd : (mapKeys m).Nodup)
    (hfe : ∃ ext, hfin = (drainLevels h m).1 ++ ext) (p : Int) :
    (match mapGet (drainLevels h m).2 p with
      | none => ([] : List Order)
      | some s2 => (heapGet hfin s2.aid).take s2.len) =
      List.filter (fun o : Order => o.GTC)
        (match mapGet m p with
          | none => ([] : List Order)
          | some s => (heapGet h s.aid).take s.len) ∧
    ((mapGet (drainLevels h m).2 p).isSome = true ↔
      List.filter (fun o : Order => o.GTC)
        (match mapGet m p with
          | none => ([] : List Order)
          | some s => (heapGet h s.aid).take s.len)
        ≠ []) := by
  obtain ⟨ext, hext⟩ := hfe
  cases hmg : mapGet m p with
  | none =>
      have hnone := drainLevels_get_none m h p hmg
      rw [hnone]
      dsimp only
      exact ⟨by simp, by simp⟩
  | some s =>
      have hsome := drainLevels_get_some m h p s hv hnd hmg
      by_cases hk : (((heapGet h s.aid).take s.len).filter
          (fun o => o.GTC)).length = 0
      · rw [if_pos hk] at hsome
        have hkeep : List.filter (fun o : Order => o.GTC)
            ((heapGet h s.aid).take s.len) = [] :=
          List.length_eq_zero.1 hk
        rw [hsome]
        dsimp only
        rw [hkeep]
        exact ⟨rfl, by simp⟩
      · rw [if_neg hk] at hsome
        obtain ⟨s2, hget, hlive⟩ := hsome
        rw [hget]
        dsimp only
        have haid2 : s2.aid < (drainLevels h m).1.length :=
          drainLevels_entry_aid m h (p, s2) (mapGet_mem hget)
        constructor
        · rw [hext, heapGet_append haid2]
          exact hlive
        · simp only [Option.isSome_some, true_iff]
          intro hcontra
          rw [hcontra] at hk
          exact hk rfl

theorem mem_resting_bid {b : OrderBook} {e : Int × GoSlice} (he : e ∈ b.Bids)
    {o : Order} (ho : o ∈ (heapGet b.heap e.2.aid).take e.2.len) :
    o ∈ restingOrders b := by
  unfold restingOrders
  exact List.mem_append.2 (Or.inl (List.mem_flatten.2
    ⟨liveOrders b e.2, List.mem_map.2 ⟨e, he, rfl⟩, ho⟩))

theorem mem_resting_ask {b : OrderBook} {e : Int × GoSlice} (he : e ∈ b.Asks)
    {o : Order} (ho : o ∈ (heapGet b.heap e.2.aid).take e.2.len) :
    o ∈ restingOrders b := by
  unfold restingOrders
  exact List.mem_append.2 (Or.inr (List.mem_flatten.2
    ⟨liveOrders b e.2, List.mem_map.2 ⟨e, he, rfl⟩, ho⟩))

/-- C6: confirmed.  On a book whose state is well-formed in the sense the
code maintains (stop channel still open, level array ids valid, level
prices unique per side, and the GTC flag only set on `OrderType == 3`
orders, as `AddOrder` derives it), `StopMatching` succeeds and afterwards:
every remaining resting order is a GTC order (so no market, limit, or FOK
order remains on either side); every price level equals the GTC-filtered
original level, so every GTC order resting immediately before shutdown
remains present and unchanged, in order; and a price level survives in its
side's collection exactly when it held at least one GTC order. -/
theorem C6_shutdown_drains (b b2 : OrderBook)
    (hstop : b.stopClosed = false)
    (hvB : ∀ e ∈ b.Bids, e.2.aid < b.heap.length)
    (hvA : ∀ e ∈ b.Asks, e.2.aid < b.heap.length)
    (hndB : (mapKeys b.Bids).Nodup) (hndA : (mapKeys b.Asks).Nodup)
    (hcons : ∀ o ∈ restingOrders b, o.GTC = true → o.OrderType = 3)
    (hsm : StopMatching b = .ok b2) :
    (∀ o ∈ restingOrders b2, o.GTC = true ∧ o.OrderType = 3) ∧
    (∀ p, bidLevel b2 p = (bidLevel b p).filter (fun o => o.GTC)) ∧
    (∀ p, askLevel b2 p = (askLevel b p).filter (fun o => o.GTC)) ∧
    (∀ p, (mapGet b2.Bids p).isSome = true ↔
      (bidLevel b p).filter (fun o => o.GTC) ≠ []) ∧
    (∀ p, (mapGet b2.Asks p).isSome = true ↔
      (askLevel b p).filter (fun o => o.GTC) ≠ []) := by
  unfold StopMatching at hsm
  rw [hstop] at hsm
  simp only [Bool.false_eq_true, if_false, Except.ok.injEq] at hsm
  subst hsm
  obtain ⟨ext1, hext1⟩ := drainLevels_heap_ext b.Bids b.heap
  obtain ⟨ext2, hext2⟩ :=
    drainLevels_heap_ext b.Asks (drainLevels b.heap b.Bids).1
  have hvA1 : ∀ e ∈ b.Asks, e.2.aid < (drainLevels b.heap b.Bids).1.length :=
    fun e he => lt_of_lt_of_le (hvA e he) (by rw [hext1]; simp)
  have hB := fun p => drainLevels_level_filter b.Bids b.heap
    (drainLevels (drainLevels b.heap b.Bids).1 b.Asks).1 hvB hndB
    ⟨ext2, hext2⟩ p
  have hA := fun p => drainLevels_level_filter b.Asks
    (drainLevels b.heap b.Bids).1
    (drainLevels (drainLevels b.heap b.Bids).1 b.Asks).1 hvA1 hndA
    ⟨[], (List.append_nil _).symm⟩ p
  have hswap : ∀ p,
      List.filter (fun o : Order => o.GTC)
        (match mapGet b.Asks p with
          | none => ([] : List Order)
          | some s =>
              (heapGet (drainLevels b.heap b.Bids).1 s.aid).take s.len) =
      (askLevel b p).filter (fun o => o.GTC) := by
    intro p
    cases hmg : mapGet b.Asks p with
    | none => simp [askLevel, hmg]
    | some s =>
        simp only [askLevel, hmg]
        rw [hext1, heapGet_append (hvA (p, s) (mapGet_mem hmg))]
        rfl
  refine ⟨?_, ?_, ?_, ?_, ?_⟩
  · intro o ho
    have ho2 : o ∈
        ((drainLevels b.heap b.Bids).2.map (fun e =>
          (heapGet (drainLevels (drainLevels b.heap b.Bids).1 b.Asks).1
            e.2.aid).take e.2.len)).flatten ++
        ((drainLevels (drainLevels b.heap b.Bids).1 b.Asks).2.map (fun e =>
          (heapGet (drainLevels (drainLevels b.heap b.Bids).1 b.Asks).1
            e.2.aid).take e.2.len)).flatten := ho
    rcases List.mem_append.1 ho2 with hom | hom
    · obtain ⟨l, hl, hol⟩ := List.mem_flatten.1 hom
      obtain ⟨e2, he2, rfl⟩ := List.mem_map.1 hl
      obtain ⟨e, he, heq⟩ := drainLevels_entries b.Bids b.heap hvB e2 he2
      have haid : e2.2.aid < (drainLevels b.heap b.Bids).1.length :=
        drainLevels_entry_aid b.Bids b.heap e2 he2
      rw [hext2, heapGet_append haid, heq] at hol
      obtain ⟨homem, hogtc⟩ := List.mem_filter.1 hol
      exact ⟨hogtc, hcons o (mem_resting_bid he homem) hogtc⟩
    · obtain ⟨l, hl, hol⟩ := List.mem_flatten.1 hom
      obtain ⟨e2, he2, rfl⟩ := List.mem_map.1 hl
      obtain ⟨e, he, heq⟩ :=
        drainLevels_entries b.Asks (drainLevels b.heap b.Bids).1 hvA1 e2 he2
      have hswap2 : heapGet (drainLevels b.heap b.Bids).1 e.2.aid =
          heapGet b.heap e.2.aid := by
        rw [hext1]
        exact heapGet_append (hvA e he)
      rw [hswap2] at heq
      rw [heq] at hol
      obtain ⟨homem, hogtc⟩ := List.mem_filter.1 hol
      exact ⟨hogtc, hcons o (mem_resting_ask he homem) hogtc⟩
  · intro p
    exact (hB p).1
  · intro p
    have h3 := (hA p).1
    rw [hswap p] at h3
    exact h3
  · intro p
    exact (hB p).2
  · intro p
    have h5 := (hA p).2
    rw [hswap p] at h5
    exact h5

/-- Input for the C6 witness: a GTC bid at 100, a market ask at 101 and a
GTC ask at 102 (not crossing, so the state is unaffected by matching). -/
def c6wBook : OrderBook :=
  bookOf [mkOrder "buy" "gtc" 100 5, mkOrder "sell" "market" 101 7,
          mkOrder "sell" "gtc" 102 3]

/-- The C6 witness book after shutdown. -/
def c6wBook2 : OrderBook :=
  (StopMatching c6wBook).toOption.getD NewOrderBook

/-- Witness for C6: the market ask level 101 is dropped entirely, the GTC
levels survive unchanged. -/
theorem C6_shutdown_drains_witness :
    bidLevel c6wBook2 100 = (bidLevel c6wBook 100).filter (fun o => o.GTC) ∧
    askLevel c6wBook2 101 = (askLevel c6wBook 101).filter (fun o => o.GTC) ∧
    ((mapGet c6wBook2.Asks 101).isSome = true ↔
      (askLevel c6wBook 101).filter (fun o => o.GTC) ≠ []) ∧
    ((mapGet c6wBook2.Asks 102).isSome = true ↔
      (askLevel c6wBook 102).filter (fun o => o.GTC) ≠ []) :=
  ⟨(C6_shutdown_drains c6wBook c6wBook2 (by decide) (by decide) (by decide)
      (by decide) (by decide) (by decide) (by rfl)).2.1 100,
   (C6_shutdown_drains c6wBook c6wBook2 (by decide) (by decide) (by decide)
      (by decide) (by decide) (by decide) (by rfl)).2.2.1 101,
   (C6_shutdown_drains c6wBook c6wBook2 (by decide) (by decide) (by decide)
      (by decide) (by decide) (by decide) (by rfl)).2.2.2.2 101,
   (C6_shutdown_drains c6wBook c6wBook2 (by decide) (by decide) (by decide)
      (by decide) (by decide) (by decide) (by rfl)).2.2.2.2 102⟩

end TCPOrderBook
